import Mathlib

/-!
Verification of the stanza-based transition parsing excerpt
(`stanza/models/constituency/transition_sequence.py`,
`parse_transitions.py`, `parse_transitions_depparse.py`,
`state_depparse.py`).

Conventions of the embedding:
* Token ids are `Nat`; heads are `Int`, with `-1` standing for a
  missing head, following the conversion at line 52 of
  `transition_sequence.py`.  We embed sentences after the id/head
  integer conversion and the multiword/empty-node filtering of lines
  50-52, so a sentence is a plain list of `(id, head)` records.
* Python keeps all its stacks with the top at the END of the list
  (index -1 is the top).  Throughout this file every stack is kept
  with the top at the HEAD of the list, so the Python element at
  index -1 is our head, the Python element at index -2 is our second
  element, and the Python list is the reverse of ours.  Buffers are
  consumed from the front in both.
* the Python set objects (for the done set) are observed only through
  membership,
  so they are embedded as lists with `::` for `set.add`.
* Raised exceptions are embedded as `Except.error`; the `print`
  side effects inside the legality predicates are ignored.
-/

/-- A UD token after the integer conversion of `UD_to_oracle` lines
50-52: an integer id and an integer head, `-1` encoding a missing
head. -/
structure Token where
  id : Nat
  head : Int
deriving DecidableEq, Repr

/-- One recorded oracle step: `[buffer[:], stack[:], action]` as
appended by `Shift` / `LeftArc` / `RightArc` in
`transition_sequence.py` lines 24-34 (snapshots taken before the
action is applied; the action is one of the strings `"SHIFT"`,
`"LEFTARC"`, `"RIGHTARC"`). -/
structure OStep where
  buffer : List Nat
  stack : List Nat
  action : String
deriving DecidableEq, Repr

/-- Embeds the dict comprehension of line 54 mapping each non-ROOT
token id to its head.  A Python dict built from a list lets later
entries win, so we look the key up in the reversed association
list. -/
def headsOf (tokens : List Token) : Nat → Option Int :=
  fun k =>
    ((tokens.filter (fun t => t.id != 0)).map (fun t => (t.id, t.head))).reverse.lookup k

/-- Embeds the defaultdict of lines 55-58: the id of every token whose
head is not missing is appended to the dependents list of that head,
and keys never appended to yield the empty list. -/
def dependentsOf (tokens : List Token) : Int → List Nat :=
  fun h => (tokens.filter (fun t => t.head != -1 && t.head == h)).map (fun t => t.id)

/-- Embeds is_done of lines 36-37: all gold dependents of the given
dependent are in the done set. -/
def is_done (dependent : Nat) (dependents : Int → List Nat) (done : List Nat) : Bool :=
  (dependents (dependent : Int)).all (fun d => done.contains d)

/-- Embeds can_LeftArc of lines 65-69: the stack has at least two
elements, the head of the second-from-top s1 (Python index -2) is the
top s0 (Python index -1), and the dependents of s1 are all done.
Stacks are top-first here. -/
def can_LeftArc (heads : Nat → Option Int) (dependents : Int → List Nat)
    (stack done : List Nat) : Bool :=
  match stack with
  | s0 :: s1 :: _ => heads s1 == some (s0 : Int) && is_done s1 dependents done
  | _ => false

/-- Embeds can_RightArc of lines 71-75: symmetric to can_LeftArc, the
head of the top s0 is the second-from-top s1, and the dependents of s0
are all done. -/
def can_RightArc (heads : Nat → Option Int) (dependents : Int → List Nat)
    (stack done : List Nat) : Bool :=
  match stack with
  | s0 :: s1 :: _ => heads s0 == some (s1 : Int) && is_done s0 dependents done
  | _ => false

/-- The oracle loop of `UD_to_oracle` (lines 77-87):
`while buffer or len(stack) > 1`, try `LeftArc`, then `RightArc`, then
`Shift`, else raise.  Each helper first appends
`[buffer[:], stack[:], ACTION]` to `steps` and then updates the state
(lines 24-34): `LeftArc` pops `stack[-2]` into `done`, `RightArc` pops
`stack[-1]` into `done`, `Shift` moves `buffer[0]` onto the stack.
The `"IndexError"` arms are the `pop` failures on a too-short stack;
they are unreachable because the guards require two stack elements. -/
def oracleLoop (heads : Nat → Option Int) (deps : Int → List Nat)
    (buffer stack done : List Nat) : Except String (List OStep) :=
  if buffer = [] ∧ stack.length ≤ 1 then
    .ok []
  else if can_LeftArc heads deps stack done then
    match stack with
    | s0 :: s1 :: rest =>
      (oracleLoop heads deps buffer (s0 :: rest) (s1 :: done)).map
        (fun steps => ⟨buffer, s0 :: s1 :: rest, "LEFTARC"⟩ :: steps)
    | _ => .error "IndexError"
  else if can_RightArc heads deps stack done then
    match stack with
    | s0 :: rest =>
      (oracleLoop heads deps buffer rest (s0 :: done)).map
        (fun steps => ⟨buffer, s0 :: rest, "RIGHTARC"⟩ :: steps)
    | [] => .error "IndexError"
  else
    match buffer with
    | b :: bs =>
      (oracleLoop heads deps bs (b :: stack) done).map
        (fun steps => ⟨b :: bs, stack, "SHIFT"⟩ :: steps)
    | [] => .error "Non-projective tree or stuck parser."
termination_by 2 * buffer.length + stack.length
decreasing_by
  all_goals simp
  all_goals omega

/-- `UD_to_oracle(sentence)` (lines 39-87): prepend the ROOT token
(id 0, no head), build the `heads` and `dependents` tables, put every
non-ROOT id on the buffer and ROOT alone on the stack, and run the
oracle loop. -/
def UD_to_oracle (sentence : List Token) : Except String (List OStep) :=
  let tokens : List Token := ⟨0, -1⟩ :: sentence
  let heads := headsOf tokens
  let deps := dependentsOf tokens
  let buffer := (tokens.filter (fun t => t.id != 0)).map (fun t => t.id)
  oracleLoop heads deps buffer [0] []

/-- A fuel-indexed copy of `oracleLoop`, used to evaluate it on
concrete inputs (the well-founded recursion of `oracleLoop` does not
reduce in the kernel).  `oracleLoopFuel_eq` below proves it agrees
with `oracleLoop` whenever the fuel covers the loop measure. -/
def oracleLoopFuel (heads : Nat → Option Int) (deps : Int → List Nat) :
    Nat → List Nat → List Nat → List Nat → Except String (List OStep)
  | 0, _, _, _ => .error "out of fuel"
  | fuel + 1, buffer, stack, done =>
    if buffer = [] ∧ stack.length ≤ 1 then
      .ok []
    else if can_LeftArc heads deps stack done then
      match stack with
      | s0 :: s1 :: rest =>
        (oracleLoopFuel heads deps fuel buffer (s0 :: rest) (s1 :: done)).map
          (fun steps => ⟨buffer, s0 :: s1 :: rest, "LEFTARC"⟩ :: steps)
      | _ => .error "IndexError"
    else if can_RightArc heads deps stack done then
      match stack with
      | s0 :: rest =>
        (oracleLoopFuel heads deps fuel buffer rest (s0 :: done)).map
          (fun steps => ⟨buffer, s0 :: rest, "RIGHTARC"⟩ :: steps)
      | [] => .error "IndexError"
    else
      match buffer with
      | b :: bs =>
        (oracleLoopFuel heads deps fuel bs (b :: stack) done).map
          (fun steps => ⟨b :: bs, stack, "SHIFT"⟩ :: steps)
      | [] => .error "Non-projective tree or stuck parser."

/-- The distinct failure modes of `oracle_to_UD` (lines 112-126):
an unrecognized action string (`ValueError`), or an out-of-range
list access (Python `IndexError` from `buffer.pop(0)` / `stack[-2]` /
`stack.pop()`). -/
inductive ReplayError where
  | invalidAction (a : String)
  | indexError
deriving DecidableEq, Repr

/-- The action loop of `oracle_to_UD` (lines 112-126), acting on
(buffer, stack, arcs): `"SHIFT"` moves `buffer[0]` to the stack top;
`"LEFTARC"` records the arc `(stack[-1], stack[-2])` (head first) and
removes `stack[-2]`; `"RIGHTARC"` records `(stack[-2], stack[-1])` and
removes the top; any other string raises a ValueError.  Stacks are
top-first, so the Python element at index -1 is the list head. -/
def replayLoop : List String → List Nat → List Nat → List (Nat × Nat) →
    Except ReplayError (List Nat × List Nat × List (Nat × Nat))
  | [], buffer, stack, arcs => .ok (buffer, stack, arcs)
  | action :: rest, buffer, stack, arcs =>
    if action = "SHIFT" then
      match buffer with
      | b :: bs => replayLoop rest bs (b :: stack) arcs
      | [] => .error .indexError
    else if action = "LEFTARC" then
      match stack with
      | s0 :: s1 :: ss => replayLoop rest buffer (s0 :: ss) (arcs ++ [(s0, s1)])
      | _ => .error .indexError
    else if action = "RIGHTARC" then
      match stack with
      | s0 :: s1 :: ss => replayLoop rest buffer (s1 :: ss) (arcs ++ [(s1, s0)])
      | _ => .error .indexError
    else
      .error (.invalidAction action)

/-- `heads = {dep: head for head, dep in arcs}` followed by
`heads.get(id, 0)` (lines 129-133): later arcs win in the dict, hence
the lookup over the reversed arc list; a token with no incoming arc
defaults to ROOT (0). -/
def reconstructHead (arcs : List (Nat × Nat)) (d : Nat) : Nat :=
  match arcs.reverse.find? (fun p => p.2 == d) with
  | some p => p.1
  | none => 0

/-- `oracle_to_UD(tokens, actions)` (lines 89-136): tokens are the
non-ROOT ids in order; ROOT is added internally, the actions are
replayed from buffer = the ids and stack = `[0]`, and every token is
returned with its reconstructed head. -/
def oracle_to_UD (tokens : List Nat) (actions : List String) :
    Except ReplayError (List (Nat × Nat)) :=
  let allTokens := 0 :: tokens
  let buffer := allTokens.filter (fun i => i != 0)
  match replayLoop actions buffer [0] [] with
  | .error e => .error e
  | .ok (_, _, arcs) => .ok (tokens.map (fun i => (i, reconstructHead arcs i)))

/-! ### Basic helpers -/

theorem exceptMap_eq_ok {ε α β : Type} (e : Except ε α) (f : α → β) (y : β) :
    e.map f = .ok y ↔ ∃ x, e = .ok x ∧ y = f x := by
  cases e <;> simp [Except.map, eq_comm]

theorem lookup_eq_none_of_keys (k : Nat) :
    ∀ l : List (Nat × Int), (∀ p ∈ l, p.1 ≠ k) → l.lookup k = none := by
  intro l
  induction l with
  | nil => simp
  | cons a t ih =>
    intro h
    have ha : a.1 ≠ k := h a (by simp)
    have : (k == a.1) = false := by simpa [beq_iff_eq] using (Ne.symm ha)
    simpa [List.lookup, this] using ih (fun p hp => h p (List.mem_cons_of_mem _ hp))

theorem lookup_mem_of_nodup (k : Nat) (v : Int) :
    ∀ l : List (Nat × Int), (l.map Prod.fst).Nodup → (k, v) ∈ l → l.lookup k = some v := by
  intro l
  induction l with
  | nil => simp
  | cons a t ih =>
    intro hnd hmem
    rcases List.mem_cons.mp hmem with heq | hmem
    · subst heq
      simp [List.lookup]
    · have hnd' : a.1 ∉ t.map Prod.fst ∧ (t.map Prod.fst).Nodup := by
        simpa [List.nodup_cons] using hnd
      have hk : a.1 ≠ k := by
        intro hk
        have : k ∈ t.map Prod.fst := List.mem_map.mpr ⟨(k, v), hmem, rfl⟩
        exact hnd'.1 (hk ▸ this)
      have : (k == a.1) = false := by simpa [beq_iff_eq] using (Ne.symm hk)
      simpa [List.lookup, this] using ih hnd'.2 hmem

/-- The heads table never has an entry for ROOT: line 54 filters out
token id 0. -/
theorem headsOf_zero (tokens : List Token) : headsOf tokens 0 = none := by
  apply lookup_eq_none_of_keys
  intro p hp
  simp only [List.mem_reverse, List.mem_map, List.mem_filter] at hp
  obtain ⟨t, ⟨_, hid⟩, rfl⟩ := hp
  simpa using hid

/-- With pairwise-distinct non-zero ids, the heads table maps each
token id of the sentence to its gold head. -/
theorem headsOf_mem (sentence : List Token) (t : Token)
    (hnodup : (sentence.map Token.id).Nodup) (hid : ∀ u ∈ sentence, u.id ≠ 0)
    (ht : t ∈ sentence) : headsOf (⟨0, -1⟩ :: sentence) t.id = some t.head := by
  unfold headsOf
  have hfil : (Token.mk 0 (-1) :: sentence).filter (fun u => u.id != 0) = sentence := by
    rw [List.filter_cons]
    simp only [show ((Token.mk 0 (-1)).id != 0) = false from rfl, if_false]
    exact List.filter_eq_self.mpr (fun u hu => by simpa using hid u hu)
  rw [hfil]
  apply lookup_mem_of_nodup
  · have : ((sentence.map (fun t => (t.id, t.head))).reverse.map Prod.fst)
        = (sentence.map Token.id).reverse := by
      simp [List.map_reverse, Function.comp]
    rw [this]
    exact List.nodup_reverse.mpr hnodup
  · simp only [List.mem_reverse, List.mem_map]
    exact ⟨t, ht, rfl⟩

/-! ### The fuel-indexed loop agrees with the source loop -/

theorem oracleLoopFuel_eq (heads : Nat → Option Int) (deps : Int → List Nat) :
    ∀ fuel buffer stack done, 2 * buffer.length + stack.length < fuel →
    oracleLoopFuel heads deps fuel buffer stack done =
      oracleLoop heads deps buffer stack done := by
  intro fuel
  induction fuel with
  | zero => intro buffer stack done h; omega
  | succ n ih =>
    intro buffer stack done h
    rw [oracleLoop.eq_def]
    simp only [oracleLoopFuel]
    by_cases hterm : buffer = [] ∧ stack.length ≤ 1
    · rw [if_pos hterm, if_pos hterm]
    · rw [if_neg hterm, if_neg hterm]
      by_cases hL : can_LeftArc heads deps stack done
      · rw [if_pos hL, if_pos hL]
        rcases stack with _ | ⟨s0, _ | ⟨s1, rest⟩⟩
        · rfl
        · rfl
        · show Except.map (fun steps => (⟨buffer, s0 :: s1 :: rest, "LEFTARC"⟩ : OStep) :: steps)
              (oracleLoopFuel heads deps n buffer (s0 :: rest) (s1 :: done)) =
            Except.map (fun steps => (⟨buffer, s0 :: s1 :: rest, "LEFTARC"⟩ : OStep) :: steps)
              (oracleLoop heads deps buffer (s0 :: rest) (s1 :: done))
          rw [ih buffer (s0 :: rest) (s1 :: done)
            (by simp only [List.length_cons] at h ⊢; omega)]
      · rw [if_neg hL, if_neg hL]
        by_cases hR : can_RightArc heads deps stack done
        · rw [if_pos hR, if_pos hR]
          rcases stack with _ | ⟨s0, rest⟩
          · rfl
          · show Except.map (fun steps => (⟨buffer, s0 :: rest, "RIGHTARC"⟩ : OStep) :: steps)
                (oracleLoopFuel heads deps n buffer rest (s0 :: done)) =
              Except.map (fun steps => (⟨buffer, s0 :: rest, "RIGHTARC"⟩ : OStep) :: steps)
                (oracleLoop heads deps buffer rest (s0 :: done))
            rw [ih buffer rest (s0 :: done)
              (by simp only [List.length_cons] at h ⊢; omega)]
        · rw [if_neg hR, if_neg hR]
          rcases buffer with _ | ⟨b, bs⟩
          · rfl
          · show Except.map (fun steps => (⟨b :: bs, stack, "SHIFT"⟩ : OStep) :: steps)
                (oracleLoopFuel heads deps n bs (b :: stack) done) =
              Except.map (fun steps => (⟨b :: bs, stack, "SHIFT"⟩ : OStep) :: steps)
                (oracleLoop heads deps bs (b :: stack) done)
            rw [ih bs (b :: stack) done
              (by simp only [List.length_cons] at h ⊢; omega)]

/-- The fuel `UD_to_oracle` uses below always covers the loop
measure. -/
def UD_to_oracleFuel (sentence : List Token) : Except String (List OStep) :=
  let tokens : List Token := ⟨0, -1⟩ :: sentence
  let heads := headsOf tokens
  let deps := dependentsOf tokens
  let buffer := (tokens.filter (fun t => t.id != 0)).map (fun t => t.id)
  oracleLoopFuel heads deps (2 * buffer.length + 2) buffer [0] []

theorem UD_to_oracle_eq_fuel (sentence : List Token) :
    UD_to_oracle sentence = UD_to_oracleFuel sentence := by
  unfold UD_to_oracle UD_to_oracleFuel
  rw [oracleLoopFuel_eq]
  simp

/-! ### Replay: the initial arc list is a frame -/

theorem replayLoop_append :
    ∀ (acts : List String) (buffer stack : List Nat) (arcs0 : List (Nat × Nat)),
    replayLoop acts buffer stack arcs0 =
      (replayLoop acts buffer stack []).map (fun r => (r.1, r.2.1, arcs0 ++ r.2.2)) := by
  intro acts
  induction acts with
  | nil => intro buffer stack arcs0; simp [replayLoop, Except.map]
  | cons a rest ih =>
    intro buffer stack arcs0
    simp only [replayLoop]
    by_cases hs : a = "SHIFT"
    · rw [if_pos hs, if_pos hs]
      cases buffer with
      | nil => simp [Except.map]
      | cons b bs => exact ih bs (b :: stack) arcs0
    · rw [if_neg hs, if_neg hs]
      by_cases hl : a = "LEFTARC"
      · rw [if_pos hl, if_pos hl]
        rcases stack with _ | ⟨s0, _ | ⟨s1, ss⟩⟩
        · simp [Except.map]
        · simp [Except.map]
        · show replayLoop rest buffer (s0 :: ss) (arcs0 ++ [(s0, s1)]) =
            Except.map (fun r => (r.1, r.2.1, arcs0 ++ r.2.2))
              (replayLoop rest buffer (s0 :: ss) ([] ++ [(s0, s1)]))
          rw [ih buffer (s0 :: ss) (arcs0 ++ [(s0, s1)]), ih buffer (s0 :: ss) ([] ++ [(s0, s1)])]
          cases replayLoop rest buffer (s0 :: ss) [] <;> simp [Except.map]
      · rw [if_neg hl, if_neg hl]
        by_cases hr : a = "RIGHTARC"
        · rw [if_pos hr, if_pos hr]
          rcases stack with _ | ⟨s0, _ | ⟨s1, ss⟩⟩
          · simp [Except.map]
          · simp [Except.map]
          · show replayLoop rest buffer (s1 :: ss) (arcs0 ++ [(s1, s0)]) =
              Except.map (fun r => (r.1, r.2.1, arcs0 ++ r.2.2))
                (replayLoop rest buffer (s1 :: ss) ([] ++ [(s1, s0)]))
            rw [ih buffer (s1 :: ss) (arcs0 ++ [(s1, s0)]), ih buffer (s1 :: ss) ([] ++ [(s1, s0)])]
            cases replayLoop rest buffer (s1 :: ss) [] <;> simp [Except.map]
        · rw [if_neg hr, if_neg hr]
          simp [Except.map]

/-! ### The guards of the oracle loop, spelled out as in the spec -/

/-- The spec wording of the LeftArc applicability test: the stack has
at least two elements, the top is the gold head of the element just
below it, and every gold dependent of that below-element is already in
the done set.  This definition follows the SPEC, to be compared with
`can_LeftArc` from the source. -/
def specLeftArcCond (heads : Nat → Option Int) (deps : Int → List Nat)
    (stack done : List Nat) : Prop :=
  ∃ s0 s1 rest, stack = s0 :: s1 :: rest ∧ heads s1 = some (s0 : Int) ∧
    ∀ d ∈ deps (s1 : Int), d ∈ done

/-- The spec wording of the RightArc applicability test: the element
just below the top is the gold head of the top, and every gold
dependent of the top is already done.  Follows the SPEC, to be
compared with `can_RightArc` from the source. -/
def specRightArcCond (heads : Nat → Option Int) (deps : Int → List Nat)
    (stack done : List Nat) : Prop :=
  ∃ s0 s1 rest, stack = s0 :: s1 :: rest ∧ heads s0 = some (s1 : Int) ∧
    ∀ d ∈ deps (s0 : Int), d ∈ done

theorem can_LeftArc_iff (heads : Nat → Option Int) (deps : Int → List Nat)
    (stack done : List Nat) :
    can_LeftArc heads deps stack done = true ↔ specLeftArcCond heads deps stack done := by
  rcases stack with _ | ⟨s0, _ | ⟨s1, rest⟩⟩ <;>
    simp [can_LeftArc, specLeftArcCond, is_done, List.all_eq_true]
  constructor
  · intro h; exact ⟨s0, s1, ⟨rfl, rfl⟩, h⟩
  · rintro ⟨a, b, ⟨rfl, rfl⟩, h⟩; exact h

theorem can_RightArc_iff (heads : Nat → Option Int) (deps : Int → List Nat)
    (stack done : List Nat) :
    can_RightArc heads deps stack done = true ↔ specRightArcCond heads deps stack done := by
  rcases stack with _ | ⟨s0, _ | ⟨s1, rest⟩⟩ <;>
    simp [can_RightArc, specRightArcCond, is_done, List.all_eq_true]
  constructor
  · intro h; exact ⟨s0, s1, ⟨rfl, rfl⟩, h⟩
  · rintro ⟨a, b, ⟨rfl, rfl⟩, h⟩; exact h

/-! ### Main invariant: replaying the recorded actions mirrors the oracle -/

/-- Replaying the action tags of a successful oracle run from the same
start state consumes the whole buffer, leaves a single survivor on the
stack, records only arcs that agree with the gold heads table, and
accounts for every id of the start state either as the dependent of
some recorded arc or as the survivor. -/
theorem oracleLoopFuel_replay (heads : Nat → Option Int) (deps : Int → List Nat) :
    ∀ fuel buffer stack done steps, stack ≠ [] →
    oracleLoopFuel heads deps fuel buffer stack done = .ok steps →
    ∃ L fin,
      replayLoop (steps.map (fun st => st.action)) buffer stack [] = .ok ([], fin, L) ∧
      fin.length = 1 ∧
      (∀ p ∈ L, heads p.2 = some (p.1 : Int)) ∧
      (∀ x, (x ∈ buffer ∨ x ∈ stack) → x ∈ L.map Prod.snd ∨ x ∈ fin) := by
  intro fuel
  induction fuel with
  | zero =>
    intro buffer stack done steps hne hok
    simp [oracleLoopFuel] at hok
  | succ n ih =>
    intro buffer stack done steps hne hok
    rcases stack with _ | ⟨s0, _ | ⟨s1, rest⟩⟩
    · exact absurd rfl hne
    · -- stack = [s0]: only the terminal and Shift branches are reachable
      rcases buffer with _ | ⟨b, bs⟩
      · simp only [oracleLoopFuel] at hok
        rw [if_pos (by simp)] at hok
        have hsteps : steps = [] := by simpa using hok.symm
        subst hsteps
        refine ⟨[], [s0], by simp [replayLoop], by simp, by simp, ?_⟩
        intro x hx
        rcases hx with hx | hx
        · simp at hx
        · exact Or.inr hx
      · simp only [oracleLoopFuel] at hok
        rw [if_neg (by simp)] at hok
        rw [if_neg (by simp [can_LeftArc])] at hok
        rw [if_neg (by simp [can_RightArc])] at hok
        simp only [exceptMap_eq_ok] at hok
        obtain ⟨steps', hrec, hsteps⟩ := hok
        subst hsteps
        obtain ⟨L', fin, hrep, hfin, hgold, hcover⟩ :=
          ih bs (b :: [s0]) done steps' (by simp) hrec
        refine ⟨L', fin, ?_, hfin, hgold, ?_⟩
        · simp only [List.map_cons, replayLoop, if_true]
          exact hrep
        · intro x hx
          apply hcover
          rcases hx with hx | hx
          · rcases List.mem_cons.mp hx with rfl | hx
            · exact Or.inr (by simp)
            · exact Or.inl hx
          · exact Or.inr (List.mem_cons_of_mem _ hx)
    · -- stack = s0 :: s1 :: rest
      simp only [oracleLoopFuel] at hok
      rw [if_neg (by rintro ⟨-, hlen⟩; simp only [List.length_cons] at hlen; omega)] at hok
      by_cases hL : can_LeftArc heads deps (s0 :: s1 :: rest) done
      · -- LeftArc step
        rw [if_pos hL] at hok
        simp only [exceptMap_eq_ok] at hok
        obtain ⟨steps', hrec, hsteps⟩ := hok
        subst hsteps
        obtain ⟨L', fin, hrep, hfin, hgold, hcover⟩ :=
          ih buffer (s0 :: rest) (s1 :: done) steps' (by simp) hrec
        have harc : heads s1 = some (s0 : Int) := by
          rcases (can_LeftArc_iff heads deps _ done).mp hL with ⟨a, b, r, heq, hh, -⟩
          obtain ⟨rfl, rfl, rfl⟩ : s0 = a ∧ s1 = b ∧ rest = r := by simpa using heq
          exact hh
        refine ⟨(s0, s1) :: L', fin, ?_, hfin, ?_, ?_⟩
        · simp only [List.map_cons, replayLoop, List.nil_append]
          rw [if_neg (by decide), if_true]
          rw [replayLoop_append, hrep]
          simp [Except.map]
        · intro p hp
          rcases List.mem_cons.mp hp with rfl | hp
          · exact harc
          · exact hgold p hp
        · intro x hx
          by_cases hx1 : x = s1
          · subst hx1
            exact Or.inl (by simp)
          · have hx2 : x ∈ buffer ∨ x ∈ s0 :: rest := by
              rcases hx with hx | hx
              · exact Or.inl hx
              · right
                rcases List.mem_cons.mp hx with rfl | hx
                · simp
                · rcases List.mem_cons.mp hx with rfl | hx
                  · exact absurd rfl hx1
                  · simp [hx]
            rcases hcover x hx2 with h | h
            · exact Or.inl (by simp only [List.map_cons]; exact List.mem_cons_of_mem _ h)
            · exact Or.inr h
      · rw [if_neg hL] at hok
        by_cases hR : can_RightArc heads deps (s0 :: s1 :: rest) done
        · -- RightArc step
          rw [if_pos hR] at hok
          simp only [exceptMap_eq_ok] at hok
          obtain ⟨steps', hrec, hsteps⟩ := hok
          subst hsteps
          obtain ⟨L', fin, hrep, hfin, hgold, hcover⟩ :=
            ih buffer (s1 :: rest) (s0 :: done) steps' (by simp) hrec
          have harc : heads s0 = some (s1 : Int) := by
            rcases (can_RightArc_iff heads deps _ done).mp hR with ⟨a, b, r, heq, hh, -⟩
            obtain ⟨rfl, rfl, rfl⟩ : s0 = a ∧ s1 = b ∧ rest = r := by simpa using heq
            exact hh
          refine ⟨(s1, s0) :: L', fin, ?_, hfin, ?_, ?_⟩
          · simp only [List.map_cons, replayLoop, List.nil_append]
            rw [if_neg (by decide), if_neg (by decide)]
            rw [replayLoop_append, hrep]
            simp [Except.map]
          · intro p hp
            rcases List.mem_cons.mp hp with rfl | hp
            · exact harc
            · exact hgold p hp
          · intro x hx
            by_cases hx0 : x = s0
            · subst hx0
              exact Or.inl (by simp)
            · have hx2 : x ∈ buffer ∨ x ∈ s1 :: rest := by
                rcases hx with hx | hx
                · exact Or.inl hx
                · right
                  rcases List.mem_cons.mp hx with rfl | hx
                  · exact absurd rfl hx0
                  · exact hx
              rcases hcover x hx2 with h | h
              · exact Or.inl (by simp only [List.map_cons]; exact List.mem_cons_of_mem _ h)
              · exact Or.inr h
        · -- Shift (or stuck)
          rw [if_neg hR] at hok
          rcases buffer with _ | ⟨b, bs⟩
          · simp at hok
          · simp only [exceptMap_eq_ok] at hok
            obtain ⟨steps', hrec, hsteps⟩ := hok
            subst hsteps
            obtain ⟨L', fin, hrep, hfin, hgold, hcover⟩ :=
              ih bs (b :: s0 :: s1 :: rest) done steps' (by simp) hrec
            refine ⟨L', fin, ?_, hfin, hgold, ?_⟩
            · simp only [List.map_cons, replayLoop, if_true]
              exact hrep
            · intro x hx
              apply hcover
              rcases hx with hx | hx
              · rcases List.mem_cons.mp hx with rfl | hx
                · exact Or.inr (by simp)
                · exact Or.inl hx
              · exact Or.inr (List.mem_cons_of_mem _ hx)

/-! ### Step counting -/

/-- A successful oracle run on a start state records one SHIFT per
buffer element, one arc action per stack element except the single
survivor, and hence records 2*B + S - 1 steps in total. -/
theorem oracleLoopFuel_counts (heads : Nat → Option Int) (deps : Int → List Nat) :
    ∀ fuel buffer stack done steps, stack ≠ [] →
    oracleLoopFuel heads deps fuel buffer stack done = .ok steps →
    (steps.filter (fun st => st.action == "SHIFT")).length = buffer.length ∧
    (steps.filter (fun st => st.action == "LEFTARC" || st.action == "RIGHTARC")).length
      = buffer.length + stack.length - 1 ∧
    steps.length = 2 * buffer.length + stack.length - 1 := by
  intro fuel
  induction fuel with
  | zero =>
    intro buffer stack done steps hne hok
    simp [oracleLoopFuel] at hok
  | succ n ih =>
    intro buffer stack done steps hne hok
    rcases stack with _ | ⟨s0, _ | ⟨s1, rest⟩⟩
    · exact absurd rfl hne
    · rcases buffer with _ | ⟨b, bs⟩
      · simp only [oracleLoopFuel] at hok
        rw [if_pos (by simp)] at hok
        have hsteps : steps = [] := by simpa using hok.symm
        subst hsteps
        simp
      · simp only [oracleLoopFuel] at hok
        rw [if_neg (by simp)] at hok
        rw [if_neg (by simp [can_LeftArc])] at hok
        rw [if_neg (by simp [can_RightArc])] at hok
        simp only [exceptMap_eq_ok] at hok
        obtain ⟨steps', hrec, hsteps⟩ := hok
        subst hsteps
        obtain ⟨c1, c2, c3⟩ := ih bs (b :: [s0]) done steps' (by simp) hrec
        refine ⟨?_, ?_, ?_⟩ <;> simp [List.filter_cons, c1, c2, c3] <;> omega
    · simp only [oracleLoopFuel] at hok
      rw [if_neg (by rintro ⟨-, hlen⟩; simp only [List.length_cons] at hlen; omega)] at hok
      by_cases hL : can_LeftArc heads deps (s0 :: s1 :: rest) done
      · rw [if_pos hL] at hok
        simp only [exceptMap_eq_ok] at hok
        obtain ⟨steps', hrec, hsteps⟩ := hok
        subst hsteps
        obtain ⟨c1, c2, c3⟩ := ih buffer (s0 :: rest) (s1 :: done) steps' (by simp) hrec
        refine ⟨?_, ?_, ?_⟩ <;> simp [List.filter_cons, c1, c2, c3] <;> omega
      · rw [if_neg hL] at hok
        by_cases hR : can_RightArc heads deps (s0 :: s1 :: rest) done
        · rw [if_pos hR] at hok
          simp only [exceptMap_eq_ok] at hok
          obtain ⟨steps', hrec, hsteps⟩ := hok
          subst hsteps
          obtain ⟨c1, c2, c3⟩ := ih buffer (s1 :: rest) (s0 :: done) steps' (by simp) hrec
          refine ⟨?_, ?_, ?_⟩ <;> simp [List.filter_cons, c1, c2, c3] <;> omega
        · rw [if_neg hR] at hok
          rcases buffer with _ | ⟨b, bs⟩
          · simp at hok
          · simp only [exceptMap_eq_ok] at hok
            obtain ⟨steps', hrec, hsteps⟩ := hok
            subst hsteps
            obtain ⟨c1, c2, c3⟩ := ih bs (b :: s0 :: s1 :: rest) done steps' (by simp) hrec
            refine ⟨?_, ?_, ?_⟩ <;> simp [List.filter_cons, c1, c2, c3] <;> omega

/-! ### The final step of a successful oracle run -/

/-- An empty returned step list means the loop was already in its
terminal state: empty buffer and at most one stack element. -/
theorem oracleLoopFuel_ok_nil (heads : Nat → Option Int) (deps : Int → List Nat)
    (fuel : Nat) (buffer stack done : List Nat)
    (hok : oracleLoopFuel heads deps fuel buffer stack done = .ok []) :
    buffer = [] ∧ stack.length ≤ 1 := by
  by_contra hterm
  cases fuel with
  | zero => simp [oracleLoopFuel] at hok
  | succ n =>
    simp only [oracleLoopFuel] at hok
    rw [if_neg hterm] at hok
    by_cases hL : can_LeftArc heads deps stack done
    · rw [if_pos hL] at hok
      rcases stack with _ | ⟨s0, _ | ⟨s1, rest⟩⟩
      · simp [can_LeftArc] at hL
      · simp [can_LeftArc] at hL
      · simp only [exceptMap_eq_ok] at hok
        obtain ⟨x, -, hx⟩ := hok
        simp at hx
    · rw [if_neg hL] at hok
      by_cases hR : can_RightArc heads deps stack done
      · rw [if_pos hR] at hok
        rcases stack with _ | ⟨s0, rest⟩
        · simp [can_RightArc] at hR
        · simp only [exceptMap_eq_ok] at hok
          obtain ⟨x, -, hx⟩ := hok
          simp at hx
      · rw [if_neg hR] at hok
        rcases buffer with _ | ⟨b, bs⟩
        · simp at hok
        · simp only [exceptMap_eq_ok] at hok
          obtain ⟨x, -, hx⟩ := hok
          simp at hx

/-- In a successful, non-empty oracle run whose start stack has ROOT
(id 0, which has no entry in the heads table) at the bottom, the last
recorded step is a RightArc taken with an empty buffer and a
two-element stack whose bottom is ROOT: the final reduction attaches
the last remaining token to ROOT. -/
theorem oracleLoopFuel_last (heads : Nat → Option Int) (deps : Int → List Nat)
    (h0 : heads 0 = none) :
    ∀ fuel buffer stack done steps, stack ≠ [] → stack.getLast? = some 0 →
    oracleLoopFuel heads deps fuel buffer stack done = .ok steps →
    steps ≠ [] →
    ∃ last, steps.getLast? = some last ∧ last.action = "RIGHTARC" ∧ last.buffer = [] ∧
      ∃ a, last.stack = [a, 0] ∧ heads a = some (0 : Int) := by
  intro fuel
  induction fuel with
  | zero =>
    intro buffer stack done steps _ _ hok
    simp [oracleLoopFuel] at hok
  | succ n ih =>
    intro buffer stack done steps hsne hlast hok hne
    rcases stack with _ | ⟨s0, _ | ⟨s1, rest⟩⟩
    · exact absurd rfl hsne
    · have hs0 : s0 = 0 := by simpa using hlast
      subst hs0
      rcases buffer with _ | ⟨b, bs⟩
      · simp only [oracleLoopFuel] at hok
        rw [if_pos (by simp)] at hok
        have : steps = [] := by simpa using hok.symm
        exact absurd this hne
      · simp only [oracleLoopFuel] at hok
        rw [if_neg (by simp)] at hok
        rw [if_neg (by simp [can_LeftArc])] at hok
        rw [if_neg (by simp [can_RightArc])] at hok
        simp only [exceptMap_eq_ok] at hok
        obtain ⟨steps', hrec, hsteps⟩ := hok
        subst hsteps
        have hne' : steps' ≠ [] := by
          intro hnil
          subst hnil
          obtain ⟨-, hlen⟩ := oracleLoopFuel_ok_nil heads deps n bs [b, 0] done hrec
          simp at hlen
        obtain ⟨last, hl, hrest⟩ := ih bs [b, 0] done steps' (by simp) (by simp) hrec hne'
        refine ⟨last, ?_, hrest⟩
        rcases steps' with _ | ⟨t, ts⟩
        · exact absurd rfl hne'
        · rw [List.getLast?_cons_cons]
          exact hl
    · simp only [oracleLoopFuel] at hok
      rw [if_neg (by rintro ⟨-, hlen⟩; simp only [List.length_cons] at hlen; omega)] at hok
      by_cases hL : can_LeftArc heads deps (s0 :: s1 :: rest) done
      · rw [if_pos hL] at hok
        simp only [exceptMap_eq_ok] at hok
        obtain ⟨steps', hrec, hsteps⟩ := hok
        subst hsteps
        have harc : heads s1 = some (s0 : Int) := by
          rcases (can_LeftArc_iff heads deps _ done).mp hL with ⟨a, b, r, heq, hh, -⟩
          obtain ⟨rfl, rfl, rfl⟩ : s0 = a ∧ s1 = b ∧ rest = r := by simpa using heq
          exact hh
        have hs1 : s1 ≠ 0 := by
          intro h
          rw [h, h0] at harc
          simp at harc
        rcases rest with _ | ⟨r, rs⟩
        · exact absurd (by simpa using hlast) hs1
        · have hlast' : (s0 :: r :: rs).getLast? = some 0 := by
            rw [List.getLast?_cons_cons]
            rw [List.getLast?_cons_cons, List.getLast?_cons_cons] at hlast
            exact hlast
          have hne' : steps' ≠ [] := by
            intro hnil
            subst hnil
            obtain ⟨-, hlen⟩ :=
              oracleLoopFuel_ok_nil heads deps n buffer (s0 :: r :: rs) (s1 :: done) hrec
            simp at hlen
          obtain ⟨last, hl, hrest⟩ :=
            ih buffer (s0 :: r :: rs) (s1 :: done) steps' (by simp) hlast' hrec hne'
          refine ⟨last, ?_, hrest⟩
          rcases steps' with _ | ⟨t, ts⟩
          · exact absurd rfl hne'
          · rw [List.getLast?_cons_cons]
            exact hl
      · rw [if_neg hL] at hok
        by_cases hR : can_RightArc heads deps (s0 :: s1 :: rest) done
        · rw [if_pos hR] at hok
          simp only [exceptMap_eq_ok] at hok
          obtain ⟨steps', hrec, hsteps⟩ := hok
          subst hsteps
          have harc : heads s0 = some (s1 : Int) := by
            rcases (can_RightArc_iff heads deps _ done).mp hR with ⟨a, b, r, heq, hh, -⟩
            obtain ⟨rfl, rfl, rfl⟩ : s0 = a ∧ s1 = b ∧ rest = r := by simpa using heq
            exact hh
          by_cases hsp : steps' = []
          · subst hsp
            obtain ⟨hbuf, hlen⟩ :=
              oracleLoopFuel_ok_nil heads deps n buffer (s1 :: rest) (s0 :: done) hrec
            have hrestnil : rest = [] := by
              rcases rest with _ | ⟨r, rs⟩
              · rfl
              · simp at hlen
            subst hrestnil
            subst hbuf
            have hs1 : s1 = 0 := by simpa using hlast
            subst hs1
            exact ⟨⟨[], [s0, 0], "RIGHTARC"⟩, by simp, rfl, rfl, s0, rfl, harc⟩
          · have hlast' : (s1 :: rest).getLast? = some 0 := by
              rcases rest with _ | ⟨r, rs⟩
              · simpa using hlast
              · rw [List.getLast?_cons_cons] at hlast ⊢
                exact hlast
            obtain ⟨last, hl, hrest2⟩ :=
              ih buffer (s1 :: rest) (s0 :: done) steps' (by simp) hlast' hrec hsp
            refine ⟨last, ?_, hrest2⟩
            rcases steps' with _ | ⟨t, ts⟩
            · exact absurd rfl hsp
            · rw [List.getLast?_cons_cons]
              exact hl
        · rw [if_neg hR] at hok
          rcases buffer with _ | ⟨b, bs⟩
          · simp at hok
          · simp only [exceptMap_eq_ok] at hok
            obtain ⟨steps', hrec, hsteps⟩ := hok
            subst hsteps
            have hne' : steps' ≠ [] := by
              intro hnil
              subst hnil
              obtain ⟨-, hlen⟩ :=
                oracleLoopFuel_ok_nil heads deps n bs (b :: s0 :: s1 :: rest) done hrec
              simp at hlen
            have hlast' : (b :: s0 :: s1 :: rest).getLast? = some 0 := by
              rw [List.getLast?_cons_cons]
              exact hlast
            obtain ⟨last, hl, hrest2⟩ :=
              ih bs (b :: s0 :: s1 :: rest) done steps' (by simp) hlast' hrec hne'
            refine ⟨last, ?_, hrest2⟩
            rcases steps' with _ | ⟨t, ts⟩
            · exact absurd rfl hne'
            · rw [List.getLast?_cons_cons]
              exact hl

/-! ### Recorded snapshots -/

/-- Every recorded step of a successful oracle run carries one of the
three action tags, and its buffer/stack fields are exactly the state
reached by replaying the preceding action tags from the start state
(i.e. the snapshots are taken immediately before each action is
applied). -/
theorem oracleLoopFuel_snapshots (heads : Nat → Option Int) (deps : Int → List Nat) :
    ∀ fuel buffer stack done steps,
    oracleLoopFuel heads deps fuel buffer stack done = .ok steps →
    ∀ i (h : i < steps.length),
      ((steps.get ⟨i, h⟩).action = "SHIFT" ∨ (steps.get ⟨i, h⟩).action = "LEFTARC" ∨
        (steps.get ⟨i, h⟩).action = "RIGHTARC") ∧
      ∃ arcs, replayLoop ((steps.take i).map (fun st => st.action)) buffer stack [] =
        .ok ((steps.get ⟨i, h⟩).buffer, (steps.get ⟨i, h⟩).stack, arcs) := by
  intro fuel
  induction fuel with
  | zero =>
    intro buffer stack done steps hok
    simp [oracleLoopFuel] at hok
  | succ n ih =>
    intro buffer stack done steps hok
    rcases stack with _ | ⟨s0, _ | ⟨s1, rest⟩⟩
    · -- empty stack: only the terminal or Shift branches can fire
      rcases buffer with _ | ⟨b, bs⟩
      · simp only [oracleLoopFuel] at hok
        rw [if_pos (by simp)] at hok
        have hsteps : steps = [] := by simpa using hok.symm
        subst hsteps
        intro i h
        exact absurd h (by simp)
      · simp only [oracleLoopFuel] at hok
        rw [if_neg (by simp)] at hok
        rw [if_neg (by simp [can_LeftArc])] at hok
        rw [if_neg (by simp [can_RightArc])] at hok
        simp only [exceptMap_eq_ok] at hok
        obtain ⟨steps', hrec, hsteps⟩ := hok
        subst hsteps
        intro i h
        cases i with
        | zero => exact ⟨Or.inl rfl, [], rfl⟩
        | succ i =>
          have h' : i < steps'.length := by
            simpa using Nat.lt_of_succ_lt_succ (by simpa using h)
          obtain ⟨hact, arcs', hrep⟩ := ih bs (b :: []) done steps' hrec i h'
          refine ⟨hact, arcs', ?_⟩
          show replayLoop ((steps'.take i).map (fun st => st.action)) bs (b :: []) [] =
            .ok ((steps'.get ⟨i, h'⟩).buffer, (steps'.get ⟨i, h'⟩).stack, arcs')
          exact hrep
    · rcases buffer with _ | ⟨b, bs⟩
      · simp only [oracleLoopFuel] at hok
        rw [if_pos (by simp)] at hok
        have hsteps : steps = [] := by simpa using hok.symm
        subst hsteps
        intro i h
        exact absurd h (by simp)
      · simp only [oracleLoopFuel] at hok
        rw [if_neg (by simp)] at hok
        rw [if_neg (by simp [can_LeftArc])] at hok
        rw [if_neg (by simp [can_RightArc])] at hok
        simp only [exceptMap_eq_ok] at hok
        obtain ⟨steps', hrec, hsteps⟩ := hok
        subst hsteps
        intro i h
        cases i with
        | zero => exact ⟨Or.inl rfl, [], rfl⟩
        | succ i =>
          have h' : i < steps'.length := by
            simpa using Nat.lt_of_succ_lt_succ (by simpa using h)
          obtain ⟨hact, arcs', hrep⟩ := ih bs (b :: [s0]) done steps' hrec i h'
          refine ⟨hact, arcs', ?_⟩
          show replayLoop ((steps'.take i).map (fun st => st.action)) bs (b :: [s0]) [] =
            .ok ((steps'.get ⟨i, h'⟩).buffer, (steps'.get ⟨i, h'⟩).stack, arcs')
          exact hrep
    · simp only [oracleLoopFuel] at hok
      rw [if_neg (by rintro ⟨-, hlen⟩; simp only [List.length_cons] at hlen; omega)] at hok
      by_cases hL : can_LeftArc heads deps (s0 :: s1 :: rest) done
      · rw [if_pos hL] at hok
        simp only [exceptMap_eq_ok] at hok
        obtain ⟨steps', hrec, hsteps⟩ := hok
        subst hsteps
        intro i h
        cases i with
        | zero => exact ⟨Or.inr (Or.inl rfl), [], rfl⟩
        | succ i =>
          have h' : i < steps'.length := by
            simpa using Nat.lt_of_succ_lt_succ (by simpa using h)
          obtain ⟨hact, arcs', hrep⟩ := ih buffer (s0 :: rest) (s1 :: done) steps' hrec i h'
          refine ⟨hact, [(s0, s1)] ++ arcs', ?_⟩
          show replayLoop ((steps'.take i).map (fun st => st.action)) buffer (s0 :: rest)
              ([] ++ [(s0, s1)]) =
            .ok ((steps'.get ⟨i, h'⟩).buffer, (steps'.get ⟨i, h'⟩).stack, [(s0, s1)] ++ arcs')
          rw [replayLoop_append, hrep]
          simp [Except.map]
      · rw [if_neg hL] at hok
        by_cases hR : can_RightArc heads deps (s0 :: s1 :: rest) done
        · rw [if_pos hR] at hok
          simp only [exceptMap_eq_ok] at hok
          obtain ⟨steps', hrec, hsteps⟩ := hok
          subst hsteps
          intro i h
          cases i with
          | zero => exact ⟨Or.inr (Or.inr rfl), [], rfl⟩
          | succ i =>
            have h' : i < steps'.length := by
              simpa using Nat.lt_of_succ_lt_succ (by simpa using h)
            obtain ⟨hact, arcs', hrep⟩ := ih buffer (s1 :: rest) (s0 :: done) steps' hrec i h'
            refine ⟨hact, [(s1, s0)] ++ arcs', ?_⟩
            show replayLoop ((steps'.take i).map (fun st => st.action)) buffer (s1 :: rest)
                ([] ++ [(s1, s0)]) =
              .ok ((steps'.get ⟨i, h'⟩).buffer, (steps'.get ⟨i, h'⟩).stack, [(s1, s0)] ++ arcs')
            rw [replayLoop_append, hrep]
            simp [Except.map]
        · rw [if_neg hR] at hok
          rcases buffer with _ | ⟨b, bs⟩
          · simp at hok
          · simp only [exceptMap_eq_ok] at hok
            obtain ⟨steps', hrec, hsteps⟩ := hok
            subst hsteps
            intro i h
            cases i with
            | zero => exact ⟨Or.inl rfl, [], rfl⟩
            | succ i =>
              have h' : i < steps'.length := by
                simpa using Nat.lt_of_succ_lt_succ (by simpa using h)
              obtain ⟨hact, arcs', hrep⟩ :=
                ih bs (b :: s0 :: s1 :: rest) done steps' hrec i h'
              refine ⟨hact, arcs', ?_⟩
              show replayLoop ((steps'.take i).map (fun st => st.action)) bs
                  (b :: s0 :: s1 :: rest) [] =
                .ok ((steps'.get ⟨i, h'⟩).buffer, (steps'.get ⟨i, h'⟩).stack, arcs')
              exact hrep

/-! ### Claim theorems -/

/-- A sample projective sentence: token 1 headed by token 2, token 2
headed by ROOT. -/
def sampleSentence : List Token := [⟨1, 2⟩, ⟨2, 0⟩]

/-- The oracle steps of the sample sentence. -/
def sampleSteps : List OStep :=
  [⟨[1, 2], [0], "SHIFT"⟩, ⟨[2], [1, 0], "SHIFT"⟩,
   ⟨[], [2, 1, 0], "LEFTARC"⟩, ⟨[], [2, 0], "RIGHTARC"⟩]

/-- C1: for every dependency tree given as a token list with distinct
non-zero integer ids and valid (non-negative) heads, if the oracle
`UD_to_oracle` produces a step sequence (which it does exactly for the
projective, parsable trees — on the others it raises, see C4), then
reconstructing with `oracle_to_UD` from the action tags of that
sequence yields, for every non-ROOT token, a reconstructed head equal
to the gold head of that token. -/
theorem C1_roundtrip (sentence : List Token)
    (hnodup : (sentence.map Token.id).Nodup)
    (hid : ∀ t ∈ sentence, t.id ≠ 0)
    (hvalid : ∀ t ∈ sentence, 0 ≤ t.head)
    (steps : List OStep)
    (hok : UD_to_oracle sentence = .ok steps) :
    oracle_to_UD (sentence.map Token.id) (steps.map (fun st => st.action)) =
      .ok (sentence.map (fun t => (t.id, t.head.toNat))) := by
  rw [UD_to_oracle_eq_fuel] at hok
  simp only [UD_to_oracleFuel] at hok
  have hfil : (Token.mk 0 (-1) :: sentence).filter (fun t => t.id != 0) = sentence := by
    rw [List.filter_cons]
    simp only [show ((Token.mk 0 (-1)).id != 0) = false from rfl, if_false]
    exact List.filter_eq_self.mpr (fun u hu => by simpa using hid u hu)
  rw [hfil] at hok
  obtain ⟨L, fin, hrep, hfin, hgold, hcover⟩ :=
    oracleLoopFuel_replay (headsOf (⟨0, -1⟩ :: sentence)) (dependentsOf (⟨0, -1⟩ :: sentence))
      (2 * (sentence.map (fun t => t.id)).length + 2) (sentence.map (fun t => t.id)) [0] []
      steps (by simp) hok
  have h0 : headsOf (⟨0, -1⟩ :: sentence) 0 = none := headsOf_zero _
  have h0fin : (0 : Nat) ∈ fin := by
    rcases hcover 0 (Or.inr (by simp)) with h | h
    · exfalso
      obtain ⟨p, hp, hp2⟩ := List.mem_map.mp h
      have := hgold p hp
      rw [hp2, h0] at this
      exact Option.noConfusion this
    · exact h
  have hfin0 : fin = [0] := by
    rcases fin with _ | ⟨a, t⟩
    · simp at hfin
    · rcases t with _ | ⟨b, t⟩
      · have ha : a = 0 := by
          have : (0 : Nat) = a := by simpa using h0fin
          exact this.symm
        rw [ha]
      · simp at hfin
  subst hfin0
  simp only [oracle_to_UD]
  have hbuf2 : (0 :: sentence.map Token.id).filter (fun i => i != 0) =
      sentence.map Token.id := by
    rw [List.filter_cons]
    simp only [show ((0 : Nat) != 0) = false from rfl, if_false]
    refine List.filter_eq_self.mpr ?_
    intro i hi
    obtain ⟨t, ht, rfl⟩ := List.mem_map.mp hi
    simpa using hid t ht
  rw [hbuf2]
  have hmapeq : sentence.map (fun t => t.id) = sentence.map Token.id := rfl
  rw [hmapeq] at hrep
  rw [hrep]
  show Except.ok ((sentence.map Token.id).map (fun i => (i, reconstructHead L i))) =
    Except.ok (sentence.map (fun t => (t.id, t.head.toNat)))
  congr 1
  rw [List.map_map]
  refine List.map_congr_left ?_
  intro t ht
  simp only [Function.comp]
  have hrecon : reconstructHead L t.id = t.head.toNat := by
    have hmem : t.id ∈ L.map Prod.snd := by
      rcases hcover t.id (Or.inl (by rw [hmapeq]; exact List.mem_map.mpr ⟨t, ht, rfl⟩)) with
        h | h
      · exact h
      · exfalso
        have : t.id = 0 := by simpa using h
        exact hid t ht this
    obtain ⟨p, hp, hp2⟩ := List.mem_map.mp hmem
    rcases hf : L.reverse.find? (fun r => r.2 == t.id) with _ | q
    · exfalso
      have := List.find?_eq_none.mp hf p (List.mem_reverse.mpr hp)
      simp [hp2] at this
    · have hq2 : q.2 = t.id := by simpa using List.find?_some hf
      have hqL : q ∈ L := List.mem_reverse.mp (List.mem_of_find?_eq_some hf)
      have hq := hgold q hqL
      rw [hq2] at hq
      have hgoldt : headsOf (⟨0, -1⟩ :: sentence) t.id = some t.head :=
        headsOf_mem sentence t hnodup hid ht
      rw [hgoldt] at hq
      have hq1 : t.head = (q.1 : Int) := Option.some.inj hq
      have hv := hvalid t ht
      have hq3 : q.1 = t.head.toNat := by omega
      simp only [reconstructHead, hf]
      exact hq3
  rw [hrecon]

/-- C1 witness: the sample sentence round-trips. -/
theorem C1_roundtrip_witness :
    oracle_to_UD (sampleSentence.map Token.id) (sampleSteps.map (fun st => st.action)) =
      .ok (sampleSentence.map (fun t => (t.id, t.head.toNat))) :=
  C1_roundtrip sampleSentence (by decide) (by decide) (by decide) sampleSteps
    (by rw [UD_to_oracle_eq_fuel]; rfl)

/-- The heads table of the sample sentence. -/
def sampleHeads : Nat → Option Int := headsOf (⟨0, -1⟩ :: sampleSentence)

/-- The dependents table of the sample sentence. -/
def sampleDeps : Int → List Nat := dependentsOf (⟨0, -1⟩ :: sampleSentence)

/-- C2: at every iteration of the oracle loop exactly one action is
chosen, in strict priority order: whenever an iteration records a
step, that step is a LeftArc exactly when the spec LeftArc condition
holds, a RightArc exactly when the LeftArc condition fails and the
RightArc condition holds, and a Shift exactly when both fail and the
buffer is non-empty.  The conditions are spelled out from the spec
(`specLeftArcCond` / `specRightArcCond`) rather than reusing the
source predicates. -/
theorem C2_priority (heads : Nat → Option Int) (deps : Int → List Nat)
    (buffer stack done : List Nat) (step : OStep) (rest : List OStep)
    (hok : oracleLoop heads deps buffer stack done = .ok (step :: rest)) :
    (step.action = "LEFTARC" ↔ specLeftArcCond heads deps stack done) ∧
    (step.action = "RIGHTARC" ↔
      ¬specLeftArcCond heads deps stack done ∧ specRightArcCond heads deps stack done) ∧
    (step.action = "SHIFT" ↔
      ¬specLeftArcCond heads deps stack done ∧ ¬specRightArcCond heads deps stack done ∧
        buffer ≠ []) := by
  rw [← oracleLoopFuel_eq heads deps (2 * buffer.length + stack.length + 1) buffer stack done
    (by omega)] at hok
  simp only [oracleLoopFuel] at hok
  by_cases hterm : buffer = [] ∧ stack.length ≤ 1
  · rw [if_pos hterm] at hok
    simp at hok
  · rw [if_neg hterm] at hok
    by_cases hL : can_LeftArc heads deps stack done
    · rw [if_pos hL] at hok
      rcases stack with _ | ⟨s0, _ | ⟨s1, rest'⟩⟩
      · simp [can_LeftArc] at hL
      · simp [can_LeftArc] at hL
      · simp only [exceptMap_eq_ok] at hok
        obtain ⟨steps', -, hsteps⟩ := hok
        have hstep : step = ⟨buffer, s0 :: s1 :: rest', "LEFTARC"⟩ :=
          (List.cons.injEq _ _ _ _ ▸ hsteps).1
        have hspecL := (can_LeftArc_iff heads deps _ done).mp hL
        subst hstep
        refine ⟨by simp [hspecL], by simp [hspecL], by simp [hspecL]⟩
    · rw [if_neg hL] at hok
      have hnL : ¬specLeftArcCond heads deps stack done :=
        fun h => hL ((can_LeftArc_iff heads deps stack done).mpr h)
      by_cases hR : can_RightArc heads deps stack done
      · rw [if_pos hR] at hok
        rcases stack with _ | ⟨s0, _ | ⟨s1, rest'⟩⟩
        · simp [can_RightArc] at hR
        · simp [can_RightArc] at hR
        · simp only [exceptMap_eq_ok] at hok
          obtain ⟨steps', -, hsteps⟩ := hok
          have hstep : step = ⟨buffer, s0 :: s1 :: rest', "RIGHTARC"⟩ :=
            (List.cons.injEq _ _ _ _ ▸ hsteps).1
          have hspecR := (can_RightArc_iff heads deps _ done).mp hR
          subst hstep
          refine ⟨by simp [hnL], by simp [hnL, hspecR], by simp [hnL, hspecR]⟩
      · rw [if_neg hR] at hok
        have hnR : ¬specRightArcCond heads deps stack done :=
          fun h => hR ((can_RightArc_iff heads deps stack done).mpr h)
        rcases buffer with _ | ⟨b, bs⟩
        · simp at hok
        · simp only [exceptMap_eq_ok] at hok
          obtain ⟨steps', -, hsteps⟩ := hok
          have hstep : step = ⟨b :: bs, stack, "SHIFT"⟩ :=
            (List.cons.injEq _ _ _ _ ▸ hsteps).1
          subst hstep
          refine ⟨by simp [hnL], by simp [hnL, hnR], by simp [hnL, hnR]⟩

/-- C2 witness: in the sample state with stack ROOT, 1, 2 (top-first
[2, 1, 0]) the first recorded action is a LeftArc, so the spec LeftArc
condition holds there. -/
theorem C2_priority_witness :
    specLeftArcCond sampleHeads sampleDeps [2, 1, 0] [] :=
  (C2_priority sampleHeads sampleDeps [] [2, 1, 0] [] ⟨[], [2, 1, 0], "LEFTARC"⟩
      [⟨[], [2, 0], "RIGHTARC"⟩]
      ((oracleLoopFuel_eq sampleHeads sampleDeps 10 [] [2, 1, 0] [] (by simp)).symm.trans
        rfl)).1.mp rfl

/-- C4: when the buffer is empty, more than one element remains on the
stack, and neither the LeftArc nor the RightArc condition holds, the
oracle loop raises the non-projectivity error instead of returning any
step sequence. -/
theorem C4_stuck_raises (heads : Nat → Option Int) (deps : Int → List Nat)
    (stack done : List Nat) (hlen : 1 < stack.length)
    (hnL : ¬specLeftArcCond heads deps stack done)
    (hnR : ¬specRightArcCond heads deps stack done) :
    oracleLoop heads deps [] stack done = .error "Non-projective tree or stuck parser." := by
  rw [← oracleLoopFuel_eq heads deps (2 * List.length [] + stack.length + 1) [] stack done
    (by omega)]
  simp only [oracleLoopFuel]
  rw [if_neg (by rintro ⟨-, h⟩; omega)]
  rw [if_neg (fun h => hnL ((can_LeftArc_iff heads deps stack done).mp h))]
  rw [if_neg (fun h => hnR ((can_RightArc_iff heads deps stack done).mp h))]

/-- A sentence with a dependency cycle (1 headed by 2, 2 headed by 1):
after shifting both tokens the oracle is stuck. -/
def stuckSentence : List Token := [⟨1, 2⟩, ⟨2, 1⟩]

/-- The heads table of the stuck sentence. -/
def stuckHeads : Nat → Option Int := headsOf (⟨0, -1⟩ :: stuckSentence)

/-- The dependents table of the stuck sentence. -/
def stuckDeps : Int → List Nat := dependentsOf (⟨0, -1⟩ :: stuckSentence)

/-- C4 witness: the stuck state reached on the cyclic sentence raises. -/
theorem C4_stuck_raises_witness :
    oracleLoop stuckHeads stuckDeps [] [2, 1, 0] [] =
      .error "Non-projective tree or stuck parser." :=
  C4_stuck_raises stuckHeads stuckDeps [2, 1, 0] [] (by simp)
    (fun h => absurd ((can_LeftArc_iff stuckHeads stuckDeps [2, 1, 0] []).mpr h) (by decide))
    (fun h => absurd ((can_RightArc_iff stuckHeads stuckDeps [2, 1, 0] []).mpr h) (by decide))

/-- C5: whenever `UD_to_oracle` returns a sequence for a sentence of N
non-ROOT tokens (it always terminates: `oracleLoop` is well-founded in
`2*|buffer| + |stack|`), the sequence has exactly 2N steps, exactly N
of them SHIFT and exactly N of them arc-forming, and when N is
positive the final step is a RightArc taken with an empty buffer on a
two-element stack whose bottom is ROOT, reducing the last token
against ROOT. -/
theorem C5_counts (sentence : List Token) (hid : ∀ t ∈ sentence, t.id ≠ 0)
    (steps : List OStep) (hok : UD_to_oracle sentence = .ok steps) :
    steps.length = 2 * sentence.length ∧
    (steps.filter (fun st => st.action == "SHIFT")).length = sentence.length ∧
    (steps.filter (fun st => st.action == "LEFTARC" || st.action == "RIGHTARC")).length
      = sentence.length ∧
    (steps ≠ [] → ∃ last, steps.getLast? = some last ∧ last.action = "RIGHTARC" ∧
      last.buffer = [] ∧ ∃ a, last.stack = [a, 0] ∧
        headsOf (⟨0, -1⟩ :: sentence) a = some 0) := by
  rw [UD_to_oracle_eq_fuel] at hok
  simp only [UD_to_oracleFuel] at hok
  have hfil : (Token.mk 0 (-1) :: sentence).filter (fun t => t.id != 0) = sentence := by
    rw [List.filter_cons]
    simp only [show ((Token.mk 0 (-1)).id != 0) = false from rfl, if_false]
    exact List.filter_eq_self.mpr (fun u hu => by simpa using hid u hu)
  rw [hfil] at hok
  obtain ⟨c1, c2, c3⟩ :=
    oracleLoopFuel_counts (headsOf (⟨0, -1⟩ :: sentence)) (dependentsOf (⟨0, -1⟩ :: sentence))
      (2 * (sentence.map (fun t => t.id)).length + 2) (sentence.map (fun t => t.id)) [0] []
      steps (by simp) hok
  refine ⟨?_, ?_, ?_, ?_⟩
  · rw [c3, List.length_map]
    simp
  · rw [c1, List.length_map]
  · rw [c2, List.length_map]
    simp
  · intro hne
    exact oracleLoopFuel_last (headsOf (⟨0, -1⟩ :: sentence))
      (dependentsOf (⟨0, -1⟩ :: sentence)) (headsOf_zero _)
      (2 * (sentence.map (fun t => t.id)).length + 2) (sentence.map (fun t => t.id)) [0] []
      steps (by simp) (by simp) hok hne

/-- C5 witness: the sample run has 4 = 2*2 steps, two shifts, two arc
steps, and ends with the RightArc against ROOT. -/
theorem C5_counts_witness :
    sampleSteps.length = 2 * sampleSentence.length ∧
    (sampleSteps.filter (fun st => st.action == "SHIFT")).length = sampleSentence.length ∧
    (sampleSteps.filter (fun st => st.action == "LEFTARC" || st.action == "RIGHTARC")).length
      = sampleSentence.length ∧
    (sampleSteps ≠ [] → ∃ last, sampleSteps.getLast? = some last ∧
      last.action = "RIGHTARC" ∧ last.buffer = [] ∧ ∃ a, last.stack = [a, 0] ∧
        headsOf (⟨0, -1⟩ :: sampleSentence) a = some 0) :=
  C5_counts sampleSentence (by decide) sampleSteps (by rw [UD_to_oracle_eq_fuel]; rfl)

/-- C10 (implicit): every element of a sequence returned by
`UD_to_oracle` is a step record [buffer, stack, action] where the
action is one of the strings SHIFT, LEFTARC, RIGHTARC — not a bare
transition tag, so a caller must project out the third component — and
where buffer and stack are snapshots of the oracle state immediately
before the action: they equal the state obtained by replaying the
preceding action tags from the initial state. -/
theorem C10_steps_shape (sentence : List Token) (steps : List OStep)
    (hok : UD_to_oracle sentence = .ok steps) :
    ∀ i (h : i < steps.length),
      ((steps.get ⟨i, h⟩).action = "SHIFT" ∨ (steps.get ⟨i, h⟩).action = "LEFTARC" ∨
        (steps.get ⟨i, h⟩).action = "RIGHTARC") ∧
      ∃ arcs, replayLoop ((steps.take i).map (fun st => st.action))
          (((⟨0, -1⟩ :: sentence).filter (fun t => t.id != 0)).map (fun t => t.id)) [0] [] =
        .ok ((steps.get ⟨i, h⟩).buffer, (steps.get ⟨i, h⟩).stack, arcs) := by
  rw [UD_to_oracle_eq_fuel] at hok
  simp only [UD_to_oracleFuel] at hok
  exact oracleLoopFuel_snapshots (headsOf (⟨0, -1⟩ :: sentence))
    (dependentsOf (⟨0, -1⟩ :: sentence)) _ _ [0] [] steps hok

/-- C10 witness: the third sample step is an arc action whose recorded
buffer and stack are the state after replaying the first two tags. -/
theorem C10_steps_shape_witness :
    ((sampleSteps.get ⟨2, by decide⟩).action = "SHIFT" ∨
      (sampleSteps.get ⟨2, by decide⟩).action = "LEFTARC" ∨
      (sampleSteps.get ⟨2, by decide⟩).action = "RIGHTARC") ∧
    ∃ arcs, replayLoop ((sampleSteps.take 2).map (fun st => st.action))
        (((⟨0, -1⟩ :: sampleSentence).filter (fun t => t.id != 0)).map (fun t => t.id)) [0] [] =
      .ok ((sampleSteps.get ⟨2, by decide⟩).buffer, (sampleSteps.get ⟨2, by decide⟩).stack,
        arcs) :=
  C10_steps_shape sampleSentence sampleSteps (by rw [UD_to_oracle_eq_fuel]; rfl) 2 (by decide)

/-! ### The depparse LeftArc draft (parse_transitions_depparse.py) -/

namespace DepparseLeftArc

/-- Embeds LeftArc.update_state of parse_transitions_depparse.py lines
216-230, reduced to the stack of word values (constituents),
TOP-FIRST here (the Python element at index -1 is our head).  The code
forms new_arc from the values at indexes -2 and -1, head first, and
then pops index -1 (its own comment says: pop the child (left: -1,
right: -2)); with fewer than two elements the Python indexing raises
IndexError, embedded as none. -/
def update_state (constituents : List Nat) : Option (List Nat × (Nat × Nat)) :=
  match constituents with
  | c1 :: c2 :: rest => some (c2 :: rest, (c2, c1))
  | _ => none

end DepparseLeftArc

/-- C3 counterexample: the claim predicts that LeftArc forms the arc
(stack[-1], stack[-2]) — here, top-first, (1, 2) — and removes
stack[-2], leaving [1].  The LeftArc of parse_transitions_depparse.py
instead forms (stack[-2], stack[-1]) = (2, 1) and removes the top,
leaving [2]. -/
theorem C3_cex :
    DepparseLeftArc.update_state [1, 2] = some ([2], (2, 1)) ∧
    DepparseLeftArc.update_state [1, 2] ≠ some ([1], (1, 2)) := by
  decide

/-- C3 amended: in `oracle_to_UD` (the replay loop) the claim holds:
LEFTARC records (stack[-1], stack[-2]) (our (s0, s1)) and removes
stack[-2] (s1), RIGHTARC records (stack[-2], stack[-1]) and removes
the top; but in parse_transitions_depparse.py the LeftArc operator
records (stack[-2], stack[-1]) and removes the top, so the directional
property does not hold in every implementation. -/
theorem C3_amended (acts : List String) (buffer : List Nat) (s0 s1 : Nat) (ss : List Nat)
    (arcs : List (Nat × Nat)) (c1 c2 : Nat) (cs : List Nat) :
    replayLoop ("LEFTARC" :: acts) buffer (s0 :: s1 :: ss) arcs =
      replayLoop acts buffer (s0 :: ss) (arcs ++ [(s0, s1)]) ∧
    replayLoop ("RIGHTARC" :: acts) buffer (s0 :: s1 :: ss) arcs =
      replayLoop acts buffer (s1 :: ss) (arcs ++ [(s1, s0)]) ∧
    DepparseLeftArc.update_state (c1 :: c2 :: cs) = some (c2 :: cs, (c2, c1)) :=
  ⟨rfl, rfl, rfl⟩

/-! ### Legality predicates (parse_transitions.py) -/

/-- The fields of the parser state consulted by the legality
predicates of parse_transitions.py.  num_stacks is
state.stacks.length - 1 (state_depparse.py lines 53-55, one sentinel
element).  Modelled from the spec: the is_empty_buffer method used by
Shift.is_legal is missing from src (state_depparse.py defines
empty_word_queue); following the spec section 4.1 buffer-emptiness
query and empty_word_queue (state_depparse.py lines 23-26) it tests
word_position = sentence_length. -/
structure PTState where
  sentence_length : Nat
  word_position : Nat
  stacksLength : Nat
deriving DecidableEq, Repr

/-- Buffer emptiness of the state (see the note on PTState). -/
def PTState.is_empty_buffer (s : PTState) : Bool :=
  s.word_position == s.sentence_length

/-- num_stacks (state_depparse.py lines 53-55): the length of the
stacks structure minus the sentinel. -/
def PTState.num_stacks (s : PTState) : Nat := s.stacksLength - 1

/-- Shift.is_legal (parse_transitions.py lines 192-200): returns False
when the buffer is empty, True otherwise.  The Python return values
None / True / False are embedded as an Option Bool; the print call is
a dropped side effect. -/
def Shift.is_legal (state : PTState) : Option Bool :=
  if state.is_empty_buffer then some false else some true

/-- LeftArc.is_legal (parse_transitions.py lines 237-243): when
num_stacks is at least 2 the function returns True; otherwise control
falls off the end of the body and Python returns None — not False. -/
def LeftArc.is_legal (state : PTState) : Option Bool :=
  if 2 ≤ state.num_stacks then some true else none

/-- RightArc.is_legal (parse_transitions.py lines 280-286): identical
body to LeftArc.is_legal. -/
def RightArc.is_legal (state : PTState) : Option Bool :=
  if 2 ≤ state.num_stacks then some true else none

/-- C6 counterexample: on a state whose stacks structure has length 1
(num_stacks = 0 < 2) LeftArc.is_legal returns None, not the boolean
False the claim asserts. -/
theorem C6_cex :
    LeftArc.is_legal ⟨0, 0, 1⟩ = none ∧ LeftArc.is_legal ⟨0, 0, 1⟩ ≠ some false := by
  decide

/-- C6 amended: Shift.is_legal returns the boolean False exactly when
the buffer is empty and True otherwise; LeftArc.is_legal and
RightArc.is_legal return True exactly when the stack size is at least
2 and the non-boolean None (which Python treats as falsy) — never the
boolean False — when it is smaller, for every state. -/
theorem C6_amended (s : PTState) :
    (Shift.is_legal s = some false ↔ s.is_empty_buffer = true) ∧
    (Shift.is_legal s = some true ↔ s.is_empty_buffer = false) ∧
    (LeftArc.is_legal s = some true ↔ 2 ≤ s.num_stacks) ∧
    (LeftArc.is_legal s = none ↔ s.num_stacks < 2) ∧
    (RightArc.is_legal s = some true ↔ 2 ≤ s.num_stacks) ∧
    (RightArc.is_legal s = none ↔ s.num_stacks < 2) ∧
    LeftArc.is_legal s ≠ some false ∧ RightArc.is_legal s ≠ some false := by
  unfold Shift.is_legal LeftArc.is_legal RightArc.is_legal
  by_cases hb : s.is_empty_buffer <;> by_cases hs : 2 ≤ s.num_stacks <;>
    simp [hb, hs] <;> omega

/-! ### Transition tags (parse_transitions.py) -/

/-- The closed set of transition variants defined in
parse_transitions.py (Shift lines 179-216, LeftArc 218-259, RightArc
262-302). -/
inductive Transition where
  | Shift
  | LeftArc
  | RightArc
deriving DecidableEq, Repr

/-- Transition.from_repr (parse_transitions.py lines 143-176; the live
code is lines 171-176): maps the three class names to transition
values.  The function body has no else branch, so any other
description falls off the end and returns None — it does not raise. -/
def Transition.from_repr (desc : String) : Option Transition :=
  if desc = "Shift" then some .Shift
  else if desc = "LeftArc" then some .LeftArc
  else if desc = "RightArc" then some .RightArc
  else none

/-- C7 counterexample: replaying the tag Shift — one of the names the
claim calls the accepted wire format — makes the reconstructor raise
immediately: oracle_to_UD only accepts the upper-case tags SHIFT,
LEFTARC, RIGHTARC.  Conversely from_repr does not recognize the
upper-case tag SHIFT (and returns None rather than raising). -/
theorem C7_cex :
    replayLoop ["Shift"] [1] [0] [] = .error (.invalidAction "Shift") ∧
    Transition.from_repr "SHIFT" = none :=
  ⟨rfl, rfl⟩

/-- C7 amended: two distinct encodings exist.  The reconstructor
`oracle_to_UD` accepts exactly the upper-case tags SHIFT, LEFTARC,
RIGHTARC, failing immediately with an invalid-action error on any
other tag (including Shift / LeftArc / RightArc); and
Transition.from_repr decodes exactly the names Shift, LeftArc,
RightArc to transition values, returning None — silently, without an
error — on every other description. -/
theorem C7_amended (a : String) (buffer stack : List Nat) (arcs : List (Nat × Nat))
    (rest : List String) (hs : a ≠ "SHIFT") (hl : a ≠ "LEFTARC") (hr : a ≠ "RIGHTARC") :
    replayLoop (a :: rest) buffer stack arcs = .error (.invalidAction a) ∧
    Transition.from_repr "Shift" = some Transition.Shift ∧
    Transition.from_repr "LeftArc" = some Transition.LeftArc ∧
    Transition.from_repr "RightArc" = some Transition.RightArc ∧
    (∀ desc, desc ≠ "Shift" → desc ≠ "LeftArc" → desc ≠ "RightArc" →
      Transition.from_repr desc = none) := by
  refine ⟨?_, rfl, rfl, rfl, ?_⟩
  · simp only [replayLoop, if_neg hs, if_neg hl, if_neg hr]
  · intro desc h1 h2 h3
    simp [Transition.from_repr, h1, h2, h3]

/-- C7 witness: the tag Shift is rejected by the replay loop. -/
theorem C7_amended_witness :
    replayLoop ["Shift"] [1, 2] [0] [] = .error (.invalidAction "Shift") :=
  (C7_amended "Shift" [1, 2] [0] [] [] (by decide) (by decide) (by decide)).1

/-! ### Transition vocabulary validation (parse_transitions.py) -/

/-- components (parse_transitions.py lines 105-112): the base-class
implementation returns [self]; compound constituency transitions in
the full system override it, so check_transitions below is embedded
generically in the transition type and its components function. -/
def Transition.components (t : Transition) : List Transition := [t]

/-- check_transitions (parse_transitions.py lines 304-323): for each
transition of the other set that is not in the train set, raise a
RuntimeError as soon as one of its components is missing from the
train set; otherwise collect it into unknown_transitions, which is
reported with a warning after the loop.  Embedded with the accumulated
unknown set returned on normal exit. -/
def check_transitions {α : Type} [DecidableEq α] (components : α → List α)
    (train_transitions : List α) : List α → List α → Except String (List α)
  | [], unknown_transitions => .ok unknown_transitions
  | tr :: rest, unknown_transitions =>
    if tr ∈ train_transitions then
      check_transitions components train_transitions rest unknown_transitions
    else if (components tr).all (fun c => train_transitions.contains c) then
      check_transitions components train_transitions rest (unknown_transitions ++ [tr])
    else
      .error "Found transition in the other set which does not exist in the train set"

theorem check_transitions_ok {α : Type} [DecidableEq α] (components : α → List α)
    (train : List α) :
    ∀ other unknown, (∀ t ∈ other, t ∉ train → ∀ c ∈ components t, c ∈ train) →
    check_transitions components train other unknown =
      .ok (unknown ++ other.filter (fun t => !(train.contains t))) := by
  intro other
  induction other with
  | nil => intro unknown _; simp [check_transitions]
  | cons t rest ih =>
    intro unknown hgood
    simp only [check_transitions]
    by_cases ht : t ∈ train
    · rw [if_pos ht, ih unknown (fun u hu => hgood u (List.mem_cons_of_mem _ hu))]
      congr 1
      rw [List.filter_cons_of_neg (by simpa using ht)]
    · rw [if_neg ht]
      rw [if_pos (List.all_eq_true.mpr
        (fun c hc => by simpa using hgood t (by simp) ht c hc))]
      rw [ih (unknown ++ [t]) (fun u hu => hgood u (List.mem_cons_of_mem _ hu))]
      rw [List.filter_cons_of_pos (by simpa using ht)]
      simp

theorem check_transitions_error {α : Type} [DecidableEq α] (components : α → List α)
    (train : List α) :
    ∀ other unknown t, t ∈ other → t ∉ train →
    ∀ c ∈ components t, c ∉ train →
    ∃ msg, check_transitions components train other unknown = .error msg := by
  intro other
  induction other with
  | nil => intro unknown t ht; simp at ht
  | cons u rest ih =>
    intro unknown t ht htn c hc hcn
    simp only [check_transitions]
    rcases List.mem_cons.mp ht with rfl | ht
    · rw [if_neg htn]
      rw [if_neg ?_]
      · exact ⟨_, rfl⟩
      · intro hall
        exact hcn (by simpa using List.all_eq_true.mp hall c hc)
    · by_cases hu : u ∈ train
      · rw [if_pos hu]
        exact ih unknown t ht htn c hc hcn
      · rw [if_neg hu]
        by_cases hall : (components u).all (fun c => train.contains c)
        · rw [if_pos hall]
          exact ih (unknown ++ [u]) t ht htn c hc hcn
        · rw [if_neg hall]
          exact ⟨_, rfl⟩

/-- C8: the policy of check_transitions, for any transition type with
a components decomposition.  If every transition of the other set that
is absent from the train set decomposes into components that are all
known, the function returns normally, with the accepted-with-warning
set being exactly the unseen transitions; if some transition of the
other set that is absent from the train set has a component that is
also absent, the function raises. -/
theorem C8_policy {α : Type} [DecidableEq α] (components : α → List α)
    (train other : List α) :
    ((∀ t ∈ other, t ∉ train → ∀ c ∈ components t, c ∈ train) →
      check_transitions components train other [] =
        .ok (other.filter (fun t => !(train.contains t)))) ∧
    (∀ t ∈ other, t ∉ train → ∀ c ∈ components t, c ∉ train →
      ∃ msg, check_transitions components train other [] = .error msg) := by
  constructor
  · intro hgood
    simpa using check_transitions_ok components train other [] hgood
  · intro t ht htn c hc hcn
    exact check_transitions_error components train other [] t ht htn c hc hcn

/-- A components function with one compound element: 3 decomposes into
1 and 2, everything else is atomic. -/
def sampleComponents : Nat → List Nat := fun n => if n = 3 then [1, 2] else [n]

/-- C8 witness: the unseen transition 3 whose components 1, 2 are both
in the train set is accepted (returned in the warning set), while the
transition 4 with the unknown component 4 raises. -/
theorem C8_policy_witness :
    check_transitions sampleComponents [1, 2] [3] [] = .ok [3] ∧
    ∃ msg, check_transitions sampleComponents [1, 2] [4] [] = .error msg :=
  ⟨by rw [(C8_policy sampleComponents [1, 2] [3]).1 (by decide)]; rfl,
   (C8_policy sampleComponents [1, 2] [4]).2 4 (by decide) (by decide) 4 (by decide)
     (by decide)⟩

/-! ### Mutation of the oracle configuration (transition_sequence.py) -/

/-- A Python list object: an object identity together with its current
contents.  The oracle helpers of transition_sequence.py lines 24-34
update the list objects passed to them in place (buffer.pop(0),
stack.append, stack.pop(-2), stack.pop(-1), done.add) and return None,
so the caller keeps holding the same objects; the heap is modelled
explicitly to state the mutation claim. -/
structure PyListObj where
  objId : Nat
  contents : List Nat
deriving DecidableEq, Repr

/-- The oracle configuration as its caller sees it: references to the
buffer and stack list objects (done and steps are also mutated in
place; buffer and stack suffice to observe the claim). -/
structure OracleConfigObj where
  buffer : PyListObj
  stack : PyListObj
deriving DecidableEq, Repr

/-- The Shift helper of transition_sequence.py lines 24-26 as a heap
transformation: stack.append(buffer.pop(0)) rewrites the contents of
both existing list objects — the object identities are unchanged, no
new list object is allocated, and no new configuration value is
returned.  (Stacks are top-first, so append conses at the head; the
buffer head takes an irrelevant default of 0 on an empty buffer,
where the Python pop would raise — the oracle only shifts with a
non-empty buffer.) -/
def oracleShift (c : OracleConfigObj) : OracleConfigObj :=
  { buffer := { objId := c.buffer.objId, contents := c.buffer.contents.tail },
    stack := { objId := c.stack.objId,
               contents := c.buffer.contents.headD 0 :: c.stack.contents } }

/-- C9 counterexample: applying the oracle Shift of
transition_sequence.py does not leave the configuration it was applied
to unchanged: the very same stack object (same identity) observes
different contents afterwards, so the earlier configuration is not
preserved. -/
theorem C9_cex :
    (oracleShift ⟨⟨0, [1]⟩, ⟨1, [0]⟩⟩).stack.objId =
      (OracleConfigObj.mk ⟨0, [1]⟩ ⟨1, [0]⟩).stack.objId ∧
    (oracleShift ⟨⟨0, [1]⟩, ⟨1, [0]⟩⟩).stack.contents ≠
      (OracleConfigObj.mk ⟨0, [1]⟩ ⟨1, [0]⟩).stack.contents := by
  decide

/-- C9 amended: the State record of state_depparse.py is an immutable
namedtuple and the update_state methods of parse_transitions.py return
fresh tuples, but the oracle helpers of transition_sequence.py mutate
the buffer and stack of the configuration in place: the object
identities are preserved (no new configuration object is produced) and
their observed contents change whenever the buffer is non-empty. -/
theorem C9_amended (c : OracleConfigObj) (hbuf : c.buffer.contents ≠ []) :
    (oracleShift c).buffer.objId = c.buffer.objId ∧
    (oracleShift c).stack.objId = c.stack.objId ∧
    (oracleShift c).stack.contents ≠ c.stack.contents ∧
    (oracleShift c).buffer.contents ≠ c.buffer.contents := by
  refine ⟨rfl, rfl, ?_, ?_⟩
  · intro h
    have hlen := congrArg List.length h
    simp only [oracleShift, List.length_cons] at hlen
    omega
  · intro h
    have hlen := congrArg List.length h
    have hpos : c.buffer.contents.length ≠ 0 := by
      simpa [List.length_eq_zero] using hbuf
    simp only [oracleShift, List.length_tail] at hlen
    omega

/-- C9 witness: a concrete configuration whose buffer holds one token
is mutated by the Shift helper. -/
theorem C9_amended_witness :
    (oracleShift ⟨⟨5, [7]⟩, ⟨6, [0]⟩⟩).buffer.objId =
      (OracleConfigObj.mk ⟨5, [7]⟩ ⟨6, [0]⟩).buffer.objId ∧
    (oracleShift ⟨⟨5, [7]⟩, ⟨6, [0]⟩⟩).stack.objId =
      (OracleConfigObj.mk ⟨5, [7]⟩ ⟨6, [0]⟩).stack.objId ∧
    (oracleShift ⟨⟨5, [7]⟩, ⟨6, [0]⟩⟩).stack.contents ≠
      (OracleConfigObj.mk ⟨5, [7]⟩ ⟨6, [0]⟩).stack.contents ∧
    (oracleShift ⟨⟨5, [7]⟩, ⟨6, [0]⟩⟩).buffer.contents ≠
      (OracleConfigObj.mk ⟨5, [7]⟩ ⟨6, [0]⟩).buffer.contents :=
  C9_amended ⟨⟨5, [7]⟩, ⟨6, [0]⟩⟩ (by decide)
